import Mathlib

/-!
Shallow embedding of `src/project-1-boc011/src/netsort.go`, a distributed
record sort.  Bytes are modelled as `Nat` values below 256, byte slices as
`List Nat`, and a TCP stream as the list of chunks successively returned by
`conn.Read`.  A fatal error (`checkErrorAndExit`, i.e. `log.Fatalf`, or a Go
run-time panic) aborts the whole process; every function that can hit one is
modelled with `Option`, `none` standing for the aborted run.
-/

namespace Netsort

/-- Go declaration `type Record struct` with a 10-byte Key and a 90-byte Value
(netsort.go:23-26). -/
structure Record where
  key : List Nat
  value : List Nat
deriving DecidableEq, Repr

/-- Well-formedness of a modelled record: the Go arrays fix the lengths, and
entries are bytes. -/
def WFRecord (r : Record) : Prop :=
  r.key.length = 10 ∧ r.value.length = 90 ∧ ∀ b ∈ r.key ++ r.value, b < 256

instance (r : Record) : Decidable (WFRecord r) := by
  unfold WFRecord; infer_instance

/-- Binary logarithm by repeated halving, with explicit fuel so that it
reduces by computation; `log2Aux n n` agrees with `Nat.log2 n`. -/
def log2Aux : Nat → Nat → Nat
  | 0, _ => 0
  | fuel + 1, n => if 2 ≤ n then log2Aux fuel (n / 2) + 1 else 0

/-- Models `msb := int(math.Log2(float64(numServers)))` (netsort.go:171).
For `n ≥ 1` Go computes `Frexp`, special-cases exact powers of two (giving the
exponent exactly), and otherwise returns `log(frac)/ln 2 + exp`, which
truncates to `floor(log2 n)` for every `n` far below `2^49`; the embedding
uses the exact floor of `log2 n`. -/
def goMsb (n : Nat) : Nat := log2Aux n n

/-- Models `keyToServer := int(firstByte) >> (8 - msb)` (netsort.go:204-205).
In Go both operands are `int`; when `msb > 8` the shift count `8 - msb` is
negative and the shift is a run-time panic, modelled as `none`. -/
def keyToServer (firstByte n : Nat) : Option Nat :=
  if goMsb n ≤ 8 then some (firstByte >>> (8 - goMsb n)) else none

/-- The bytes written for one record: `streamCompleteByte := byte(0)` then the
key then the value, 101 bytes in all (netsort.go:218-224). -/
def dataFrame (r : Record) : List Nat := 0 :: (r.key ++ r.value)

/-- The terminator frame: control byte `1` followed by a fresh (zero) 10-byte
key and 90-byte value (netsort.go:227-237). -/
def termFrame : List Nat := 1 :: (List.replicate 10 0 ++ List.replicate 90 0)

/-- Models the interpretation of one complete 101-byte frame on the receive
side (netsort.go:119-123): `streamComplete := (data[0] == 1)`; a non-terminator
frame yields the record with key `data[1:11]` and value `data[11:101]`; a
terminator yields `none`. -/
def decodeFrame (d : List Nat) : Option Record :=
  if d.headI = 1 then none
  else some ⟨(d.drop 1).take 10, (d.drop 11).take 90⟩

/-- Models the inner read loop of `receiveData` (netsort.go:108-118): keep
calling `conn.Read` with a buffer of the `101 - bytesToRead` bytes still
missing, appending what arrives, until at least 101 bytes are accumulated.
`chunks` is the list of byte slices the successive `Read` calls return; a
`Read` never returns more than the buffer holds, so an oversized chunk is an
impossible input (`none`); an exhausted chunk list models a read error or a
stream closed mid-frame, which is fatal (`none`).  On success it returns the
accumulated 101 frame bytes and the chunks not yet consumed. -/
def readLoop : List (List Nat) → List Nat → Option (List Nat × List (List Nat))
  | [], _ => none
  | c :: rest, data =>
    if c.length + data.length ≤ 101 then
      if 101 ≤ (data ++ c).length then some (data ++ c, rest)
      else readLoop rest (data ++ c)
    else none

/-- Models the outer loop of `receiveData` (netsort.go:100-128) processing one
inbound connection: frames are read with the inner read loop; each data frame
record is delivered to the channel in order, and a terminator frame stops the
reader (the channel is then closed by the deferred `close`).  The result is
the list of records delivered before closure; `none` models a fatal read
error (stream ends with no terminator). -/
def recvGo : List (List Nat) → List Nat → Option (List Record)
  | [], _ => none
  | c :: rest, data =>
    if c.length + data.length ≤ 101 then
      if 101 ≤ (data ++ c).length then
        if (data ++ c).headI = 1 then some []
        else
          (recvGo rest []).map
            (fun rs =>
              ⟨((data ++ c).drop 1).take 10, ((data ++ c).drop 11).take 90⟩ :: rs)
      else recvGo rest (data ++ c)
    else none

/-- Function `receiveData` on a whole inbound stream: the outer loop started with an
empty frame buffer. -/
def receiveData (chunks : List (List Nat)) : Option (List Record) :=
  recvGo chunks []

/-- State of the collector task `collectReceivedData` (netsort.go:130-137):
how many delivery queues have been fully drained, the shared
`receivedRecords` buffer, and whether `waitGroup.Done()` has run. -/
structure CollectSt where
  idx : Nat
  buf : List Record
  fired : Bool
deriving DecidableEq, Repr

/-- One step of the collector: drain the next queue to closure (the inner
`for rec := range nodeChannels[i]` finishes exactly when the reader has closed
the channel, i.e. decoded that peer's terminator), appending every delivered
record to the buffer; once every queue is drained, fire the barrier
(`waitGroup.Done()`), exactly once. -/
def collectStep (queues : List (List Record)) (s : CollectSt) : CollectSt :=
  if s.idx < queues.length then
    ⟨s.idx + 1, s.buf ++ queues.getD s.idx [], s.fired⟩
  else if s.fired then s else ⟨s.idx, s.buf, true⟩

/-- The collector after `k` steps, from the initial state. -/
def collectRun (queues : List (List Record)) : Nat → CollectSt
  | 0 => ⟨0, [], false⟩
  | k + 1 => collectStep queues (collectRun queues k)

/-- Models `bytes.Compare` on byte slices: lexicographic, unsigned, with the
shorter slice less when one is a prefix of the other. -/
def compareBytes : List Nat → List Nat → Ordering
  | [], [] => .eq
  | [], _ :: _ => .lt
  | _ :: _, [] => .gt
  | a :: as, b :: bs =>
    if a < b then .lt else if b < a then .gt else compareBytes as bs

/-- The comparator passed to `sort.Slice` (netsort.go:246-248):
`bytes.Compare(records[i].Key[:], records[j].Key[:]) <= 0`. -/
def keyLe (a b : Record) : Bool :=
  match compareBytes a.key b.key with
  | .gt => false
  | _ => true

/-- Models the merge-and-emit stage (netsort.go:241-258): concatenate the
locally retained records with the received-records buffer, sort with the
source's comparator (`sort.Slice` modelled as `List.mergeSort` with the same
boolean comparator), and write each record as its 10 key bytes followed by its
90 value bytes, nothing else. -/
def mergeEmit (own recvd : List Record) : List Nat :=
  ((own ++ recvd).mergeSort keyLe).flatMap (fun r => r.key ++ r.value)

/-- The whole tail of `main` as seen from one node: the reader of every one of
the `N-1` inbound streams must reach its terminator (otherwise the node blocks
on `waitGroup.Wait()` forever — modelled as `none` — and the merge stage is
never entered); only then are the received records appended and merge-emit
run (netsort.go:241-258). -/
def nodeRun (own : List Record) (streams : List (List (List Nat))) : Option (List Nat) :=
  match streams.mapM receiveData with
  | none => none
  | some queues => some (mergeEmit own queues.flatten)

/-- The outbound connection table built eagerly before dispatch
(netsort.go:172-184): one entry per peer id other than self, each with the
frames written so far (none yet).  Stored as an association list in creation
order. -/
def initConns (sid n : Nat) : List (Nat × List (List Nat)) :=
  ((List.range n).filter (fun i => i ≠ sid)).map (fun i => (i, []))

/-- Append one frame to the stream of connection `i` (the three `conn.Write`
calls of one iteration write one contiguous frame). -/
def connWrite (conns : List (Nat × List (List Nat))) (i : Nat) (f : List Nat) :
    List (Nat × List (List Nat)) :=
  conns.map (fun p => if p.1 = i then (p.1, p.2 ++ [f]) else p)

/-- One iteration of the dispatch loop (netsort.go:187-225) on one record:
compute the destination (a panic there kills the run: `none`); a record owned
by this node is appended to `ownRecords`; otherwise the outbound connection is
looked up, lazily created if absent (netsort.go:210-217), and a data frame is
written on it. -/
def dispatchStep (sid n : Nat)
    (st : List (Nat × List (List Nat)) × List Record) (r : Record) :
    Option (List (Nat × List (List Nat)) × List Record) :=
  match keyToServer r.key.headI n with
  | none => none
  | some dest =>
    if dest = sid then some (st.1, st.2 ++ [r])
    else
      let conns := if (st.1.lookup dest).isSome then st.1 else st.1 ++ [(dest, [])]
      some (connWrite conns dest (dataFrame r), st.2)

/-- The dispatch loop over the whole input record sequence. -/
def dispatchAll (sid n : Nat) (records : List Record) :
    Option (List (Nat × List (List Nat)) × List Record) :=
  records.foldlM (dispatchStep sid n) (initConns sid n, [])

/-- The terminator loop (netsort.go:227-237): write one terminator frame on
every outbound connection.  Go iterates the map in arbitrary order; appending
one frame to each stream is order-independent per stream, so it is modelled as
a map over the table. -/
def sendTerminators (conns : List (Nat × List (List Nat))) :
    List (Nat × List (List Nat)) :=
  conns.map (fun p => (p.1, p.2 ++ [termFrame]))

/-- Dispatch followed by the terminator loop: the final outbound streams and
the locally retained records. -/
def dispatchRun (sid n : Nat) (records : List Record) :
    Option (List (Nat × List (List Nat)) × List Record) :=
  (dispatchAll sid n records).map (fun st => (sendTerminators st.1, st.2))

/-- Models the input-shard reading loop (netsort.go:187-203) for a regular
file, where a single `Read` returns `min(requested, remaining)` bytes with a
nil error whenever any bytes remain, and `io.EOF` only on an empty remainder.
The code issues ONE `Read` into the zero-initialised `key` array and ONE into
`value`, ignores the byte counts, and breaks only on `io.EOF`; a short read is
therefore zero-padded by the untouched array suffix. -/
def readLocal (file : List Nat) : List Record :=
  if hf : file = [] then []
  else
    let kb := file.take 10
    let rest := file.drop 10
    if rest = [] then []
    else
      let vb := rest.take 90
      ⟨kb ++ List.replicate (10 - kb.length) 0,
       vb ++ List.replicate (90 - vb.length) 0⟩ :: readLocal (rest.drop 90)
termination_by file.length
decreasing_by
  have h0 : 0 < file.length := List.length_pos.mpr hf
  simp only [List.length_drop]
  omega

/-! ## Helper lemmas -/

theorem headI_append_of_ne_nil {l l2 : List Nat} (h : l ≠ []) :
    (l ++ l2).headI = l.headI := by
  cases l with
  | nil => exact absurd rfl h
  | cons x xs => rfl

theorem log2Aux_eq (fuel : Nat) :
    ∀ n, n ≤ fuel → log2Aux fuel n = Nat.log2 n := by
  induction fuel with
  | zero =>
    intro n hn
    have h0 : n = 0 := by omega
    subst h0
    rw [log2Aux, Nat.log2.eq_def]
    norm_num
  | succ f ih =>
    intro n hn
    rw [log2Aux, Nat.log2.eq_def]
    by_cases h2 : 2 ≤ n
    · rw [if_pos h2, if_pos (by omega)]
      congr 1
      exact ih (n / 2) (by omega)
    · rw [if_neg h2, if_neg (by omega)]

theorem goMsb_eq_log2 (n : Nat) : goMsb n = Nat.log2 n :=
  log2Aux_eq n n le_rfl

theorem goMsb_pow (k : Nat) : goMsb (2 ^ k) = k := by
  rw [goMsb_eq_log2]
  simp only [Nat.log2_eq_log_two]
  exact Nat.log_pow (by norm_num) k

theorem pow_goMsb_le {n : Nat} (hn : n ≠ 0) : 2 ^ goMsb n ≤ n := by
  rw [goMsb_eq_log2]
  simp only [Nat.log2_eq_log_two]
  exact Nat.pow_log_le_self 2 hn

theorem shiftRight_lt_of_lt {b k : Nat} (hb : b < 256) (hk : k ≤ 8) :
    b >>> (8 - k) < 2 ^ k := by
  rw [Nat.shiftRight_eq_div_pow]
  have h2 : (2 : Nat) ^ (8 - k) * 2 ^ k = 2 ^ 8 := by
    rw [← pow_add]
    congr 1
    omega
  apply Nat.div_lt_of_lt_mul
  calc b < 2 ^ 8 := hb
    _ = 2 ^ (8 - k) * 2 ^ k := h2.symm

theorem keyToServer_lt {b n d : Nat} (hn : n ≠ 0) (hb : b < 256)
    (h : keyToServer b n = some d) : d < n := by
  unfold keyToServer at h
  split at h
  · next hle =>
    have hd : d = b >>> (8 - goMsb n) := by
      injection h with h
      exact h.symm
    subst hd
    exact lt_of_lt_of_le (shiftRight_lt_of_lt hb hle) (pow_goMsb_le hn)
  · exact absurd h (by simp)

theorem goMsb_512 : goMsb 512 = 9 := by decide

theorem keyToServer_512 (b : Nat) : keyToServer b 512 = none := by
  unfold keyToServer
  rw [goMsb_512]
  norm_num

theorem keyToServer_255_6 : keyToServer 255 6 = some 3 := by decide

/-- Unfolding one complete frame at the head of an inbound stream. -/
theorem recvGo_frame (d : List Nat) (rest : List (List Nat))
    (hd : d.length = 101) :
    recvGo (d :: rest) [] =
      if d.headI = 1 then some []
      else
        (recvGo rest []).map
          (fun rs => ⟨(d.drop 1).take 10, (d.drop 11).take 90⟩ :: rs) := by
  simp [recvGo, hd]

/-! ## C3: partitioning for power-of-two cluster sizes -/

/-- C3 (counterexample): the claim quantifies over every power-of-two cluster
size, but at `N = 512 = 2^9` the Go shift count `8 - msb = -1` is negative, a
run-time panic: no destination at all is computed, so in particular no
destination in `[0, 512)` exists. -/
theorem keyToServer_pow2_counterexample :
    (512 = 2 ^ 9) ∧ keyToServer 0 512 = none ∧
      ¬ ∃ d, keyToServer 0 512 = some d ∧ d < 512 := by
  refine ⟨by norm_num, keyToServer_512 0, ?_⟩
  rintro ⟨d, hd, -⟩
  rw [keyToServer_512 0] at hd
  exact Option.noConfusion hd

/-- C3 (amended): for every key byte and every power-of-two cluster size
`N = 2^k` with `N ≤ 256` (so that the Go shift count is non-negative), the
destination is computed, equals `key[0] >> (8 - log2 N)`, lies in `[0, N)`,
and depends only on the top `log2 N` bits of the key's first byte. -/
theorem keyToServer_pow2 (k b : Nat) (hk : k ≤ 8) (hb : b < 256) :
    keyToServer b (2 ^ k) = some (b >>> (8 - k))
    ∧ (∀ d, keyToServer b (2 ^ k) = some d → d < 2 ^ k)
    ∧ (∀ c, c < 256 → b >>> (8 - k) = c >>> (8 - k) →
        keyToServer b (2 ^ k) = keyToServer c (2 ^ k)) := by
  have he : keyToServer b (2 ^ k) = some (b >>> (8 - k)) := by
    unfold keyToServer
    rw [goMsb_pow]
    simp [hk]
  refine ⟨he, ?_, ?_⟩
  · intro d hd
    rw [he] at hd
    injection hd with hd
    subst hd
    exact shiftRight_lt_of_lt hb hk
  · intro c _ htop
    have he2 : keyToServer c (2 ^ k) = some (c >>> (8 - k)) := by
      unfold keyToServer
      rw [goMsb_pow]
      simp [hk]
    rw [he, he2, htop]

/-- C3 witness: at `N = 4 = 2^2` and first byte `0x45`, the destination is
the top two bits, `1`, and it is below `4`. -/
theorem keyToServer_pow2_witness :
    (2 ≤ 8 ∧ (0x45 : Nat) < 256) ∧
      (keyToServer 0x45 (2 ^ 2) = some ((0x45 : Nat) >>> (8 - 2))
        ∧ (∀ d, keyToServer 0x45 (2 ^ 2) = some d → d < 2 ^ 2)
        ∧ (∀ c, c < 256 → (0x45 : Nat) >>> (8 - 2) = c >>> (8 - 2) →
            keyToServer 0x45 (2 ^ 2) = keyToServer c (2 ^ 2))) :=
  ⟨⟨by norm_num, by norm_num⟩, keyToServer_pow2 2 0x45 (by norm_num) (by norm_num)⟩

/-! ## C4: non-power-of-two cluster sizes never reach the top ids -/

/-- C4: for a cluster size that is not a power of two, whenever the partition
function produces a destination at all it is below `2 ^ floor(log2 N)`, so the
node ids at and above that bound are never selected. -/
theorem keyToServer_non_pow2_bound (n b d : Nat)
    (hn : ¬ ∃ k, n = 2 ^ k) (hb : b < 256)
    (h : keyToServer b n = some d) : d < 2 ^ goMsb n := by
  unfold keyToServer at h
  split at h
  · next hle =>
    injection h with h
    subst h
    exact shiftRight_lt_of_lt hb hle
  · exact absurd h (by simp)

/-- C4 witness: `N = 6` is not a power of two; the largest key byte `0xFF` is
sent to node `3 < 4 = 2 ^ floor(log2 6)`, so nodes `4` and `5` are
unreachable. -/
theorem keyToServer_non_pow2_bound_witness :
    ((¬ ∃ k, (6 : Nat) = 2 ^ k) ∧ (255 : Nat) < 256 ∧
        keyToServer 255 6 = some 3) ∧ (3 : Nat) < 2 ^ goMsb 6 := by
  have hnp : ¬ ∃ k, (6 : Nat) = 2 ^ k := by
    rintro ⟨k, hk⟩
    match k with
    | 0 => simp at hk
    | 1 => simp at hk
    | 2 => norm_num at hk
    | (m + 3) =>
      have h8 : (2 : Nat) ^ 3 ≤ 2 ^ (m + 3) :=
        Nat.pow_le_pow_right (by norm_num) (by omega)
      norm_num at h8
      omega
  exact ⟨⟨hnp, by norm_num, keyToServer_255_6⟩,
    keyToServer_non_pow2_bound 6 255 3 hnp (by norm_num) keyToServer_255_6⟩

/-! ## C5: frame round-trip -/

/-- C5: encoding any well-formed record as a data frame (control byte `0`,
then the 10 key bytes, then the 90 value bytes — 101 bytes in all) and
decoding that frame yields the identical record. -/
theorem frame_roundtrip (r : Record) (hk : r.key.length = 10)
    (hv : r.value.length = 90) :
    decodeFrame (dataFrame r) = some r
    ∧ (dataFrame r).length = 101 ∧ (dataFrame r).headI = 0 := by
  refine ⟨?_, by simp [dataFrame, hk, hv], by simp [dataFrame]⟩
  unfold decodeFrame dataFrame
  rw [if_neg (by simp [List.headI])]
  have hd1 : (0 :: (r.key ++ r.value)).drop 1 = r.key ++ r.value := rfl
  have hd11 : (0 :: (r.key ++ r.value)).drop 11 = (r.key ++ r.value).drop 10 := rfl
  rw [hd1, hd11, List.take_left' hk, List.drop_left' hk,
    List.take_of_length_le (by omega)]

/-- C5 witness: the round trip at the all-`0xFF` record and at the all-zero
record. -/
theorem frame_roundtrip_witness :
    (decodeFrame (dataFrame ⟨List.replicate 10 255, List.replicate 90 255⟩) =
        some ⟨List.replicate 10 255, List.replicate 90 255⟩
      ∧ (dataFrame ⟨List.replicate 10 255, List.replicate 90 255⟩).length = 101
      ∧ (dataFrame ⟨List.replicate 10 255, List.replicate 90 255⟩).headI = 0)
    ∧ (decodeFrame (dataFrame ⟨List.replicate 10 0, List.replicate 90 0⟩) =
        some ⟨List.replicate 10 0, List.replicate 90 0⟩
      ∧ (dataFrame ⟨List.replicate 10 0, List.replicate 90 0⟩).length = 101
      ∧ (dataFrame ⟨List.replicate 10 0, List.replicate 90 0⟩).headI = 0) :=
  ⟨frame_roundtrip _ (by simp) (by simp), frame_roundtrip _ (by simp) (by simp)⟩

/-! ## C10: every control byte other than 1 marks a data frame -/

/-- C10: a 101-byte frame whose control byte is anything other than `1` is
treated as a data frame — bytes 1..10 become the key and bytes 11..100 the
value — no error is signalled, and the reader keeps going: prepended to an
inbound stream, such a frame delivers exactly that record and the rest of the
stream is processed unchanged.  Only control byte `1` stops the reader. -/
theorem anyControlByteIsData (c : Nat) (p : List Nat) (rest : List (List Nat))
    (hc : c ≠ 1) (hp : p.length = 100) :
    decodeFrame (c :: p) = some ⟨p.take 10, (p.drop 10).take 90⟩
    ∧ receiveData ((c :: p) :: rest) =
        (receiveData rest).map (fun rs => ⟨p.take 10, (p.drop 10).take 90⟩ :: rs)
    ∧ receiveData [1 :: p] = some [] := by
  have hlen : (c :: p).length = 101 := by simp [hp]
  have hlen1 : ((1 : Nat) :: p).length = 101 := by simp [hp]
  refine ⟨?_, ?_, ?_⟩
  · unfold decodeFrame
    simp only [List.headI]
    rw [if_neg hc]
    rfl
  · unfold receiveData
    rw [recvGo_frame _ _ hlen, if_neg (by simpa [List.headI] using hc)]
    rfl
  · unfold receiveData
    rw [recvGo_frame _ _ hlen1, if_pos (by simp [List.headI])]

/-- C10 witness: control byte `7` on a frame of `0x2A` payload bytes delivers
a record; the same payload under control byte `1` terminates the reader. -/
theorem anyControlByteIsData_witness :
    ((7 : Nat) ≠ 1 ∧ (List.replicate 100 42 : List Nat).length = 100) ∧
      (decodeFrame (7 :: List.replicate 100 42) =
          some ⟨(List.replicate 100 42).take 10,
                ((List.replicate 100 42).drop 10).take 90⟩
        ∧ receiveData ((7 :: List.replicate 100 42) :: [termFrame]) =
            (receiveData [termFrame]).map
              (fun rs => ⟨(List.replicate 100 42).take 10,
                          ((List.replicate 100 42).drop 10).take 90⟩ :: rs)
        ∧ receiveData [1 :: List.replicate 100 42] = some []) :=
  ⟨⟨by norm_num, by simp⟩,
    anyControlByteIsData 7 (List.replicate 100 42) [termFrame]
      (by norm_num) (by simp)⟩

/-! ## The inner read loop -/

theorem readLoop_spec :
    ∀ (chunks : List (List Nat)) (data d : List Nat) (rest : List (List Nat)),
      readLoop chunks data = some (d, rest) →
      d.length = 101 ∧ d ++ rest.flatten = data ++ chunks.flatten := by
  intro chunks
  induction chunks with
  | nil => intro data d rest h; simp [readLoop] at h
  | cons c cs ih =>
    intro data d rest h
    simp only [readLoop] at h
    by_cases h1 : c.length + data.length ≤ 101
    · rw [if_pos h1] at h
      by_cases h2 : 101 ≤ (data ++ c).length
      · rw [if_pos h2] at h
        injection h with h
        injection h with hd hrest
        subst hd
        subst hrest
        constructor
        · rw [List.length_append] at h2 ⊢
          omega
        · rw [List.flatten_cons, ← List.append_assoc]
      · rw [if_neg h2] at h
        obtain ⟨hlen, happ⟩ := ih (data ++ c) d rest h
        refine ⟨hlen, ?_⟩
        rw [happ, List.flatten_cons, List.append_assoc]
    · rw [if_neg h1] at h
      exact absurd h (by simp)

theorem readLoop_take (chunks : List (List Nat)) (d : List Nat)
    (rest : List (List Nat)) (h : readLoop chunks [] = some (d, rest)) :
    d.length = 101
    ∧ d = chunks.flatten.take 101
    ∧ rest.flatten = chunks.flatten.drop 101
    ∧ readLoop [chunks.flatten.take 101] [] = some (d, []) := by
  obtain ⟨hlen, happ⟩ := readLoop_spec chunks [] d rest h
  simp only [List.nil_append] at happ
  have hd : d = chunks.flatten.take 101 := by
    rw [← happ, List.take_left' hlen]
  have hr : rest.flatten = chunks.flatten.drop 101 := by
    rw [← happ, List.drop_left' hlen]
  refine ⟨hlen, hd, hr, ?_⟩
  simp [readLoop, ← hd, hlen]

/-- C6: the read loop accumulates exactly the first 101 bytes of the stream —
never a byte of the following frame — for every splitting of the stream into
read chunks, and the accumulated frame is the same as that of a single read
delivering those 101 bytes at once. -/
theorem readLoop_exact (chunks : List (List Nat)) (d : List Nat)
    (rest : List (List Nat)) (h : readLoop chunks [] = some (d, rest)) :
    d.length = 101
    ∧ d = chunks.flatten.take 101
    ∧ rest.flatten = chunks.flatten.drop 101
    ∧ readLoop [chunks.flatten.take 101] [] = some (d, []) :=
  readLoop_take chunks d rest h

/-- C6 witness: a frame delivered as a 1-byte read followed by a 100-byte
read accumulates exactly the 101 frame bytes, leaving nothing consumed from
the rest of the stream. -/
theorem readLoop_exact_witness :
    (readLoop [[1], List.replicate 100 2] [] =
        some (1 :: List.replicate 100 2, []))
    ∧ ((1 :: List.replicate 100 2 : List Nat).length = 101
      ∧ (1 :: List.replicate 100 2 : List Nat) =
          ([[1], List.replicate 100 2] : List (List Nat)).flatten.take 101
      ∧ ([] : List (List Nat)).flatten =
          ([[1], List.replicate 100 2] : List (List Nat)).flatten.drop 101
      ∧ readLoop [([[1], List.replicate 100 2] :
            List (List Nat)).flatten.take 101] [] =
          some (1 :: List.replicate 100 2, [])) :=
  ⟨by decide, readLoop_exact _ _ _ (by decide)⟩

/-- The outer reader loop expressed through the inner read loop: frames are
consumed one at a time. -/
theorem recvGo_eq (chunks : List (List Nat)) :
    ∀ data, recvGo chunks data =
      match readLoop chunks data with
      | none => none
      | some (d, rest) =>
        if d.headI = 1 then some []
        else
          (recvGo rest []).map
            (fun rs => ⟨(d.drop 1).take 10, (d.drop 11).take 90⟩ :: rs) := by
  induction chunks with
  | nil => intro data; simp [recvGo, readLoop]
  | cons c cs ih =>
    intro data
    simp only [recvGo, readLoop]
    by_cases h1 : c.length + data.length ≤ 101
    · rw [if_pos h1, if_pos h1]
      by_cases h2 : 101 ≤ (data ++ c).length
      · rw [if_pos h2, if_pos h2]
      · rw [if_neg h2, if_neg h2]
        exact ih (data ++ c)
    · rw [if_neg h1, if_neg h1]

/-! ## C8: a stream of zero data frames plus one terminator -/

/-- C8: an inbound stream whose bytes are exactly one terminator frame —
control byte `1` and any 100 payload bytes whatsoever — delivered in any
read chunking the read loop accepts, makes the reader terminate cleanly with
zero delivered records. -/
theorem terminatorOnlyStream (chunks : List (List Nat)) (p : List Nat)
    (hp : p.length = 100) (hfl : chunks.flatten = 1 :: p)
    (hs : (readLoop chunks []).isSome = true) :
    receiveData chunks = some [] := by
  rw [Option.isSome_iff_exists] at hs
  obtain ⟨⟨d, rest⟩, hsome⟩ := hs
  obtain ⟨hlen, hd, hrest, -⟩ := readLoop_take chunks d rest hsome
  have hdp : d = 1 :: p := by
    rw [hd, hfl]
    exact List.take_of_length_le (by simp [hp])
  unfold receiveData
  rw [recvGo_eq chunks [], hsome]
  rw [hdp]
  rfl

/-- C8 witness: the terminator frame delivered as a 1-byte chunk and a
100-byte chunk of arbitrary (`0xFF`) payload closes the queue with zero
records and no error. -/
theorem terminatorOnlyStream_witness :
    ((List.replicate 100 255 : List Nat).length = 100
      ∧ ([[1], List.replicate 100 255] : List (List Nat)).flatten =
          1 :: List.replicate 100 255
      ∧ (readLoop [[1], List.replicate 100 255] []).isSome = true)
    ∧ receiveData [[1], List.replicate 100 255] = some [] :=
  ⟨⟨by simp, by decide, by decide⟩,
    terminatorOnlyStream [[1], List.replicate 100 255] (List.replicate 100 255)
      (by simp) (by decide) (by decide)⟩

/-! ## C2: the termination barrier -/

/-- A reader that returns cleanly has observed a terminator: after the
`101 * (number of delivered records)` bytes of data frames, the next byte of
the stream is the control byte `1`. -/
theorem recvGo_terminator :
    ∀ (chunks : List (List Nat)) (data : List Nat) (recs : List Record),
      recvGo chunks data = some recs →
      ((data ++ chunks.flatten).drop (101 * recs.length)).headI = 1 := by
  intro chunks
  induction chunks with
  | nil => intro data recs h; simp [recvGo] at h
  | cons c cs ih =>
    intro data recs h
    simp only [recvGo] at h
    by_cases h1 : c.length + data.length ≤ 101
    · rw [if_pos h1] at h
      by_cases h2 : 101 ≤ (data ++ c).length
      · rw [if_pos h2] at h
        have hfull : (data ++ c).length = 101 := by
          rw [List.length_append] at h2 ⊢
          omega
        by_cases h3 : (data ++ c).headI = 1
        · rw [if_pos h3] at h
          injection h with h
          subst h
          simp only [List.length_nil, Nat.mul_zero, List.drop_zero]
          rw [List.flatten_cons, ← List.append_assoc]
          rw [headI_append_of_ne_nil (by
            intro hnil
            rw [hnil] at hfull
            simp at hfull)]
          exact h3
        · rw [if_neg h3] at h
          obtain ⟨rs, hrs, hcons⟩ := Option.map_eq_some'.mp h
          subst hcons
          have ihr := ih [] rs hrs
          simp only [List.nil_append] at ihr
          simp only [List.length_cons]
          have hmul : 101 * (rs.length + 1) = 101 + 101 * rs.length := by ring
          rw [hmul, List.flatten_cons, ← List.append_assoc, ← List.drop_drop]
          rw [List.drop_left' hfull]
          exact ihr
      · rw [if_neg h2] at h
        have ihr := ih (data ++ c) recs h
        rw [List.flatten_cons, ← List.append_assoc]
        exact ihr
    · rw [if_neg h1] at h
      exact absurd h (by simp)

/-- Invariant of the collector state machine: after `k` steps the first
`min k N` queues have been drained in order into the buffer, and the barrier
has fired exactly when all `N` queues were drained at least one step ago. -/
theorem collectRun_spec (queues : List (List Record)) :
    ∀ k, (collectRun queues k).idx = min k queues.length
      ∧ (collectRun queues k).buf = (queues.take (min k queues.length)).flatten
      ∧ ((collectRun queues k).fired = true ↔ queues.length + 1 ≤ k) := by
  intro k
  induction k with
  | zero => simp [collectRun]
  | succ k ih =>
    obtain ⟨hidx, hbuf, hfired⟩ := ih
    simp only [collectRun, collectStep]
    by_cases h : (collectRun queues k).idx < queues.length
    · rw [if_pos h]
      have hk : k < queues.length := by
        rw [hidx] at h
        omega
      have hmin : min k queues.length = k := by omega
      have hmin1 : min (k + 1) queues.length = k + 1 := by omega
      refine ⟨by simp [hidx]; omega, ?_, ?_⟩
      · simp only [hbuf, hidx, hmin, hmin1, List.take_succ]
        rw [List.flatten_append]
        congr 1
        have hget : queues[k]? = some (queues.getD k []) := by
          rw [List.getD_eq_getElem?_getD, List.getElem?_eq_getElem hk]
          rfl
        rw [hget]
        simp
      · simp only []
        rw [hfired]
        omega
    · rw [if_neg h]
      have hk : queues.length ≤ k := by
        rw [hidx] at h
        omega
      have hmin : min k queues.length = queues.length := by omega
      have hmin1 : min (k + 1) queues.length = queues.length := by omega
      by_cases hf : (collectRun queues k).fired
      · rw [if_pos hf]
        have hkk : queues.length + 1 ≤ k := hfired.mp hf
        refine ⟨by rw [hidx, hmin, hmin1], ?_, ?_⟩
        · rw [hbuf, hmin, hmin1]
        · exact iff_of_true hf (by omega)
      · rw [if_neg hf]
        have hkk : ¬ (queues.length + 1 ≤ k) := fun hh => hf (hfired.mpr hh)
        refine ⟨by simp [hidx, hmin, hmin1], ?_, ?_⟩
        · simp only []
          rw [hbuf, hmin, hmin1]
        · exact iff_of_true rfl (by omega)

/-- In the `Option` monad, a successful `mapM` succeeds pointwise. -/
theorem mapM_option_zip {α β : Type} (f : α → Option β) :
    ∀ (l : List α) (res : List β), l.mapM f = some res →
      ∀ pr ∈ l.zip res, f pr.1 = some pr.2 := by
  intro l
  induction l with
  | nil => intro res h pr hpr; simp at hpr
  | cons s ss ih =>
    intro res h pr hpr
    rw [List.mapM_cons] at h
    cases hfs : f s with
    | none => rw [hfs] at h; simp at h
    | some q =>
      rw [hfs] at h
      cases hms : ss.mapM f with
      | none => rw [hms] at h; simp at h
      | some qs =>
        rw [hms] at h
        have hres : res = q :: qs := by
          simpa using h.symm
        subst hres
        simp only [List.zip_cons_cons, List.mem_cons] at hpr
        rcases hpr with hpr | hpr
        · subst hpr
          exact hfs
        · exact ih qs hms pr hpr

/-- C2: whenever the barrier has fired (in any number `k` of collector steps),
every one of the inbound delivery queues has been drained to closure, which
required a terminator frame from each peer (the byte after each peer's data
frames is the control byte `1`); the received-records buffer then holds every
record delivered by every peer, and the merge stage — which is reached only
when every reader returned — consumes exactly that buffer. -/
theorem barrierGatesMerge (own : List Record) (streams : List (List (List Nat)))
    (queues : List (List Record)) (k : Nat)
    (hq : streams.mapM receiveData = some queues)
    (hf : (collectRun queues k).fired = true) :
    (collectRun queues k).idx = queues.length
    ∧ queues.length + 1 ≤ k
    ∧ (collectRun queues k).buf = queues.flatten
    ∧ (∀ pr ∈ streams.zip queues,
        ((pr.1.flatten.drop (101 * pr.2.length)).headI = 1))
    ∧ nodeRun own streams = some (mergeEmit own (collectRun queues k).buf) := by
  obtain ⟨hidx, hbuf, hfi⟩ := collectRun_spec queues k
  have hk : queues.length + 1 ≤ k := hfi.mp hf
  have hmin : min k queues.length = queues.length := by omega
  refine ⟨by rw [hidx, hmin], hk, ?_, ?_, ?_⟩
  · rw [hbuf, hmin, List.take_length]
  · intro pr hpr
    have hrecv : receiveData pr.1 = some pr.2 :=
      mapM_option_zip receiveData streams queues hq pr hpr
    have ht := recvGo_terminator pr.1 [] pr.2 hrecv
    simpa using ht
  · simp only [nodeRun, hq]
    rw [hbuf, hmin, List.take_length]

/-- C2 witness: two peers, one sending a single data frame then its
terminator, the other only a terminator; after 3 collector steps the barrier
has fired, both queues are drained, and the buffer holds the one delivered
record. -/
theorem barrierGatesMerge_witness :
    (([[dataFrame ⟨List.replicate 10 3, List.replicate 90 4⟩, termFrame],
        [termFrame]] : List (List (List Nat))).mapM receiveData =
        some [[⟨List.replicate 10 3, List.replicate 90 4⟩], []]
      ∧ (collectRun [[(⟨List.replicate 10 3, List.replicate 90 4⟩ : Record)], []]
          3).fired = true)
    ∧ ((collectRun [[(⟨List.replicate 10 3, List.replicate 90 4⟩ : Record)], []]
          3).idx =
        ([[(⟨List.replicate 10 3, List.replicate 90 4⟩ : Record)], []] :
          List (List Record)).length
      ∧ ([[(⟨List.replicate 10 3, List.replicate 90 4⟩ : Record)], []] :
          List (List Record)).length + 1 ≤ 3
      ∧ (collectRun [[(⟨List.replicate 10 3, List.replicate 90 4⟩ : Record)], []]
          3).buf =
        ([[(⟨List.replicate 10 3, List.replicate 90 4⟩ : Record)], []] :
          List (List Record)).flatten
      ∧ (∀ pr ∈ ([[dataFrame ⟨List.replicate 10 3, List.replicate 90 4⟩,
            termFrame], [termFrame]] : List (List (List Nat))).zip
            [[(⟨List.replicate 10 3, List.replicate 90 4⟩ : Record)], []],
          ((pr.1.flatten.drop (101 * pr.2.length)).headI = 1))
      ∧ nodeRun []
          [[dataFrame ⟨List.replicate 10 3, List.replicate 90 4⟩, termFrame],
            [termFrame]] =
        some (mergeEmit []
          (collectRun [[(⟨List.replicate 10 3, List.replicate 90 4⟩ : Record)],
            []] 3).buf)) :=
  ⟨⟨by decide, by decide⟩,
    barrierGatesMerge []
      [[dataFrame ⟨List.replicate 10 3, List.replicate 90 4⟩, termFrame],
        [termFrame]]
      [[⟨List.replicate 10 3, List.replicate 90 4⟩], []] 3
      (by decide) (by decide)⟩

/-! ## C7: one terminator per peer, always last -/

theorem lookup_cons_self (k : Nat) (v : List (List Nat))
    (rest : List (Nat × List (List Nat))) :
    (((k, v) :: rest) : List (Nat × List (List Nat))).lookup k = some v := by
  simp [List.lookup_cons]

theorem lookup_cons_ne {i k : Nat} (hik : i ≠ k) (v : List (List Nat))
    (rest : List (Nat × List (List Nat))) :
    (((k, v) :: rest) : List (Nat × List (List Nat))).lookup i =
      rest.lookup i := by
  have hbeq : (i == k) = false := by simp [hik]
  simp [List.lookup_cons, hbeq]

theorem lookup_connWrite (i j : Nat) (f : List Nat) :
    ∀ conns : List (Nat × List (List Nat)),
      (connWrite conns j f).lookup i =
        if i = j then (conns.lookup i).map (fun v => v ++ [f])
        else conns.lookup i := by
  intro conns
  induction conns with
  | nil => simp [connWrite]
  | cons p rest ih =>
    obtain ⟨k, v⟩ := p
    by_cases hkj : k = j
    · subst hkj
      have hhead : connWrite ((k, v) :: rest) k f =
          (k, v ++ [f]) :: connWrite rest k f := by
        simp [connWrite]
      rw [hhead]
      by_cases hik : i = k
      · subst hik
        rw [lookup_cons_self, lookup_cons_self, if_pos rfl]
        rfl
      · rw [lookup_cons_ne hik, lookup_cons_ne hik, ih]
    · have hhead : connWrite ((k, v) :: rest) j f =
          (k, v) :: connWrite rest j f := by
        simp [connWrite, hkj]
      rw [hhead]
      by_cases hik : i = k
      · subst hik
        rw [lookup_cons_self, lookup_cons_self, if_neg hkj]
      · rw [lookup_cons_ne hik, lookup_cons_ne hik, ih]

theorem lookup_sendTerminators (i : Nat) :
    ∀ conns : List (Nat × List (List Nat)),
      (sendTerminators conns).lookup i =
        (conns.lookup i).map (fun v => v ++ [termFrame]) := by
  intro conns
  induction conns with
  | nil => simp [sendTerminators]
  | cons p rest ih =>
    obtain ⟨k, v⟩ := p
    have hhead : sendTerminators ((k, v) :: rest) =
        (k, v ++ [termFrame]) :: sendTerminators rest := by
      simp [sendTerminators]
    rw [hhead]
    by_cases hik : i = k
    · subst hik
      rw [lookup_cons_self, lookup_cons_self]
      rfl
    · rw [lookup_cons_ne hik, lookup_cons_ne hik, ih]

theorem lookup_initConns (sid n i : Nat) :
    (initConns sid n).lookup i =
      if i < n ∧ i ≠ sid then some [] else none := by
  unfold initConns
  have hgen : ∀ l : List Nat,
      (l.map (fun j => (j, ([] : List (List Nat))))).lookup i =
        if i ∈ l then some [] else none := by
    intro l
    induction l with
    | nil => simp
    | cons x xs ih =>
      simp only [List.map_cons]
      by_cases hix : i = x
      · subst hix
        rw [lookup_cons_self, if_pos (List.mem_cons_self i xs)]
      · rw [lookup_cons_ne hix, ih]
        simp [List.mem_cons, hix]
  rw [hgen]
  by_cases hmem : i ∈ (List.range n).filter (fun j => j ≠ sid)
  · rw [if_pos hmem]
    rw [List.mem_filter, List.mem_range] at hmem
    rw [if_pos ⟨hmem.1, by simpa using hmem.2⟩]
  · rw [if_neg hmem]
    rw [if_neg (fun hc => hmem (by
      rw [List.mem_filter, List.mem_range]
      exact ⟨hc.1, by simpa using hc.2⟩))]

/-- Invariant of the dispatch loop: the connection table's streams grow by
exactly the data frames of the records routed to each destination, in input
order, and the local buffer by exactly the records owned by this node. -/
theorem dispatchAll_go (sid n : Nat) (hsid : sid < n) :
    ∀ (records : List Record) (conns : List (Nat × List (List Nat)))
      (own : List Record) (result : List (Nat × List (List Nat)) × List Record),
      (∀ r ∈ records, r.key.headI < 256) →
      (∀ j, j < n → j ≠ sid → (conns.lookup j).isSome = true) →
      conns.lookup sid = none →
      records.foldlM (dispatchStep sid n) (conns, own) = some result →
      (∀ i, result.1.lookup i =
          (conns.lookup i).map (fun v => v ++
            (records.filter
              (fun r => keyToServer r.key.headI n == some i)).map dataFrame))
      ∧ result.2 = own ++
          records.filter (fun r => keyToServer r.key.headI n == some sid) := by
  intro records
  induction records with
  | nil =>
    intro conns own result hbytes hkeys hsnone h
    simp only [List.foldlM_nil] at h
    injection h with h
    subst h
    constructor
    · intro i
      simp only [List.filter_nil, List.map_nil]
      cases conns.lookup i <;> simp
    · simp
  | cons r rest ih =>
    intro conns own result hbytes hkeys hsnone h
    rw [List.foldlM_cons] at h
    cases hks : keyToServer r.key.headI n with
    | none =>
      have hstep : dispatchStep sid n (conns, own) r = none := by
        simp [dispatchStep, hks]
      rw [hstep] at h
      simp at h
    | some dest =>
      have hblt : r.key.headI < 256 := hbytes r (List.mem_cons_self r rest)
      have hdlt : dest < n := keyToServer_lt (by omega) hblt hks
      by_cases hd : dest = sid
      · have hstep : dispatchStep sid n (conns, own) r =
            some (conns, own ++ [r]) := by
          simp [dispatchStep, hks, hd]
        rw [hstep] at h
        have h2 : rest.foldlM (dispatchStep sid n) (conns, own ++ [r]) =
            some result := h
        obtain ⟨hlook, hown⟩ := ih conns (own ++ [r]) result
          (fun r hr => hbytes r (List.mem_cons_of_mem _ hr)) hkeys hsnone h2
        constructor
        · intro i
          rw [List.filter_cons]
          by_cases hi : i = sid
          · have hbeq : (keyToServer r.key.headI n == some i) = true := by
              rw [hks, hd, hi]
              simp
            rw [hbeq]
            simp only [if_true]
            rw [hlook i, hi, hsnone]
            rfl
          · have hbeq : (keyToServer r.key.headI n == some i) = false := by
              rw [hks, hd]
              simp
              omega
            rw [hbeq]
            simp only [Bool.false_eq_true, if_false]
            exact hlook i
        · rw [hown, List.filter_cons]
          have hbeq : (keyToServer r.key.headI n == some sid) = true := by
            rw [hks, hd]
            simp
          rw [hbeq]
          simp
      · have hsome : (conns.lookup dest).isSome = true :=
          hkeys dest hdlt hd
        have hstep : dispatchStep sid n (conns, own) r =
            some (connWrite conns dest (dataFrame r), own) := by
          simp [dispatchStep, hks, hd, hsome]
        rw [hstep] at h
        have h2 : rest.foldlM (dispatchStep sid n)
            (connWrite conns dest (dataFrame r), own) = some result := h
        have hkeys2 : ∀ j, j < n → j ≠ sid →
            ((connWrite conns dest (dataFrame r)).lookup j).isSome = true := by
          intro j hj hjs
          rw [lookup_connWrite]
          by_cases hjd : j = dest
          · rw [if_pos hjd]
            obtain ⟨v, hv⟩ := Option.isSome_iff_exists.mp (hkeys j hj hjs)
            rw [hv]
            rfl
          · rw [if_neg hjd]
            exact hkeys j hj hjs
        have hsnone2 : (connWrite conns dest (dataFrame r)).lookup sid = none := by
          rw [lookup_connWrite, if_neg (fun hc => hd hc.symm), hsnone]
        obtain ⟨hlook, hown⟩ := ih (connWrite conns dest (dataFrame r)) own
          result (fun r hr => hbytes r (List.mem_cons_of_mem _ hr))
          hkeys2 hsnone2 h2
        constructor
        · intro i
          rw [List.filter_cons]
          by_cases hi : i = dest
          · have hbeq : (keyToServer r.key.headI n == some i) = true := by
              rw [hks, hi]
              simp
            rw [hbeq]
            simp only [if_true]
            rw [hlook i, lookup_connWrite, if_pos hi]
            cases conns.lookup i with
            | none => rfl
            | some v => simp
          · have hbeq : (keyToServer r.key.headI n == some i) = false := by
              rw [hks]
              simp
              omega
            rw [hbeq]
            simp only [Bool.false_eq_true, if_false]
            rw [hlook i, lookup_connWrite, if_neg hi]
        · rw [hown, List.filter_cons]
          have hbeq : (keyToServer r.key.headI n == some sid) = false := by
            rw [hks]
            simp
            omega
          rw [hbeq]
          simp

theorem dataFrame_ne_termFrame (r : Record) : dataFrame r ≠ termFrame := by
  intro h
  unfold dataFrame termFrame at h
  injection h with h1 _
  exact absurd h1 (by norm_num)

/-- C7: after the whole input has been dispatched, every peer id other than
self — including peers that received zero data frames — has an outbound
stream consisting of that peer's data frames, in input order, followed by
exactly one terminator frame; on every connection the terminator is the last
frame and no earlier frame is a terminator.  The locally retained buffer is
exactly the records owned by this node. -/
theorem terminatorToEveryPeerLast (sid n : Nat) (records : List Record)
    (conns : List (Nat × List (List Nat))) (own : List Record)
    (hsid : sid < n)
    (hbytes : ∀ r ∈ records, r.key.headI < 256)
    (h : dispatchRun sid n records = some (conns, own)) :
    (∀ i, i < n → i ≠ sid →
      conns.lookup i = some
        ((records.filter (fun r => keyToServer r.key.headI n == some i)).map
            dataFrame ++ [termFrame]))
    ∧ (∀ i fs, conns.lookup i = some fs →
        fs.getLast? = some termFrame
        ∧ fs.count termFrame = 1
        ∧ ∀ f ∈ fs.dropLast, f ≠ termFrame)
    ∧ own = records.filter (fun r => keyToServer r.key.headI n == some sid) := by
  unfold dispatchRun at h
  cases hda : dispatchAll sid n records with
  | none => rw [hda] at h; simp at h
  | some st =>
    rw [hda] at h
    have hmap : some (sendTerminators st.1, st.2) = some (conns, own) := h
    have hc : sendTerminators st.1 = conns := by
      injection hmap with hmap
      injection hmap with hc ho
    have ho : st.2 = own := by
      injection hmap with hmap
      injection hmap with hc2 ho
    unfold dispatchAll at hda
    have hkeys0 : ∀ j, j < n → j ≠ sid →
        ((initConns sid n).lookup j).isSome = true := by
      intro j hj hjs
      rw [lookup_initConns, if_pos ⟨hj, hjs⟩]
      rfl
    have hsnone0 : (initConns sid n).lookup sid = none := by
      rw [lookup_initConns, if_neg (fun hc0 => hc0.2 rfl)]
    obtain ⟨hlook, hown⟩ := dispatchAll_go sid n hsid records
      (initConns sid n) [] st hbytes hkeys0 hsnone0 hda
    have hval : ∀ i, i < n → i ≠ sid →
        st.1.lookup i = some
          ((records.filter
            (fun r => keyToServer r.key.headI n == some i)).map dataFrame) := by
      intro i hi his
      rw [hlook i, lookup_initConns, if_pos ⟨hi, his⟩]
      simp
    refine ⟨?_, ?_, ?_⟩
    · intro i hi his
      rw [← hc, lookup_sendTerminators, hval i hi his]
      rfl
    · intro i fs hfs
      rw [← hc, lookup_sendTerminators] at hfs
      obtain ⟨v, hv, hvf⟩ := Option.map_eq_some'.mp hfs
      rw [hlook i, lookup_initConns] at hv
      by_cases hcond : i < n ∧ i ≠ sid
      · rw [if_pos hcond] at hv
        have hv2 : v = (records.filter
            (fun r => keyToServer r.key.headI n == some i)).map dataFrame := by
          injection hv with hv
          rw [← hv]
          simp
        have hnotin : termFrame ∉ v := by
          rw [hv2]
          intro hmem
          obtain ⟨r, -, hr⟩ := List.mem_map.mp hmem
          exact dataFrame_ne_termFrame r hr
        refine ⟨?_, ?_, ?_⟩
        · rw [← hvf]
          exact List.getLast?_concat v
        · rw [← hvf, List.count_append]
          rw [List.count_eq_zero.mpr hnotin]
          simp
        · rw [← hvf, List.dropLast_concat]
          intro f hf hftf
          rw [hftf] at hf
          exact hnotin hf
      · rw [if_neg hcond] at hv
        exact absurd hv (by simp)
    · rw [← ho, hown]
      simp

/-- C7 witness: node 0 of a 2-node cluster, one record for peer 1 and one for
itself: peer 1's stream is its data frame followed by the terminator, the
terminator is last and unique, and the own-record stays local. -/
theorem terminatorToEveryPeerLast_witness :
    ((0 : Nat) < 2
      ∧ (∀ r ∈ [(⟨200 :: List.replicate 9 0, List.replicate 90 0⟩ : Record),
          ⟨50 :: List.replicate 9 0, List.replicate 90 1⟩], r.key.headI < 256)
      ∧ dispatchRun 0 2
          [⟨200 :: List.replicate 9 0, List.replicate 90 0⟩,
            ⟨50 :: List.replicate 9 0, List.replicate 90 1⟩] =
        some ([(1, [dataFrame ⟨200 :: List.replicate 9 0, List.replicate 90 0⟩,
            termFrame])],
          [⟨50 :: List.replicate 9 0, List.replicate 90 1⟩]))
    ∧ ((∀ i, i < 2 → i ≠ 0 →
        ([(1, [dataFrame ⟨200 :: List.replicate 9 0, List.replicate 90 0⟩,
            termFrame])] : List (Nat × List (List Nat))).lookup i = some
          ((([(⟨200 :: List.replicate 9 0, List.replicate 90 0⟩ : Record),
              ⟨50 :: List.replicate 9 0, List.replicate 90 1⟩]).filter
              (fun r => keyToServer r.key.headI 2 == some i)).map dataFrame
            ++ [termFrame]))
      ∧ (∀ i fs,
          ([(1, [dataFrame ⟨200 :: List.replicate 9 0, List.replicate 90 0⟩,
              termFrame])] : List (Nat × List (List Nat))).lookup i = some fs →
          fs.getLast? = some termFrame
          ∧ fs.count termFrame = 1
          ∧ ∀ f ∈ fs.dropLast, f ≠ termFrame)
      ∧ [(⟨50 :: List.replicate 9 0, List.replicate 90 1⟩ : Record)] =
          ([(⟨200 :: List.replicate 9 0, List.replicate 90 0⟩ : Record),
            ⟨50 :: List.replicate 9 0, List.replicate 90 1⟩]).filter
            (fun r => keyToServer r.key.headI 2 == some 0)) :=
  ⟨⟨by norm_num, by decide, by decide⟩,
    terminatorToEveryPeerLast 0 2
      [⟨200 :: List.replicate 9 0, List.replicate 90 0⟩,
        ⟨50 :: List.replicate 9 0, List.replicate 90 1⟩]
      [(1, [dataFrame ⟨200 :: List.replicate 9 0, List.replicate 90 0⟩,
        termFrame])]
      [⟨50 :: List.replicate 9 0, List.replicate 90 1⟩]
      (by norm_num) (by decide) (by decide)⟩

/-! ## C1: merge and emit -/

theorem compareBytes_swap :
    ∀ a b : List Nat, compareBytes b a = (compareBytes a b).swap := by
  intro a
  induction a with
  | nil =>
    intro b
    cases b with
    | nil => rfl
    | cons y bs => rfl
  | cons x as ih =>
    intro b
    cases b with
    | nil => rfl
    | cons y bs =>
      simp only [compareBytes]
      rcases Nat.lt_trichotomy x y with h | h | h
      · rw [if_neg (by omega), if_pos h, if_pos h]
        rfl
      · subst h
        have hx : ¬ x < x := by omega
        simp only [if_neg hx]
        exact ih bs
      · rw [if_pos h, if_neg (by omega), if_pos h]
        rfl

theorem compareBytes_eq_iff :
    ∀ a b : List Nat, compareBytes a b = .eq ↔ a = b := by
  intro a
  induction a with
  | nil =>
    intro b
    cases b with
    | nil => simp [compareBytes]
    | cons y bs => simp [compareBytes]
  | cons x as ih =>
    intro b
    cases b with
    | nil => simp [compareBytes]
    | cons y bs =>
      simp only [compareBytes]
      rcases Nat.lt_trichotomy x y with h | h | h
      · rw [if_pos h]
        refine iff_of_false (by simp) (fun hc => ?_)
        injection hc with h1 _
        omega
      · subst h
        rw [if_neg (by omega), if_neg (by omega)]
        refine (ih bs).trans ⟨fun h2 => by rw [h2], fun h2 => ?_⟩
        injection h2
      · rw [if_neg (by omega), if_pos h]
        refine iff_of_false (by simp) (fun hc => ?_)
        injection hc with h1 _
        omega

theorem compareBytes_lt_iff :
    ∀ a b : List Nat,
      compareBytes a b = .lt ↔ List.Lex (fun x y : Nat => x < y) a b := by
  intro a
  induction a with
  | nil =>
    intro b
    cases b with
    | nil =>
      refine iff_of_false (by simp [compareBytes]) (fun hc => ?_)
      cases hc
    | cons y bs =>
      exact iff_of_true rfl List.Lex.nil
  | cons x as ih =>
    intro b
    cases b with
    | nil =>
      refine iff_of_false (by simp [compareBytes]) (fun hc => ?_)
      cases hc
    | cons y bs =>
      simp only [compareBytes]
      rcases Nat.lt_trichotomy x y with h | h | h
      · rw [if_pos h]
        exact iff_of_true rfl (List.Lex.rel h)
      · subst h
        rw [if_neg (by omega), if_neg (by omega)]
        refine (ih bs).trans ⟨List.Lex.cons, fun h2 => ?_⟩
        cases h2 with
        | cons h3 => exact h3
        | rel h3 => omega
      · rw [if_neg (by omega), if_pos h]
        refine iff_of_false (by simp) (fun hc => ?_)
        cases hc with
        | cons h3 => omega
        | rel h3 => omega

theorem keyLe_eq_true_iff (a b : Record) :
    keyLe a b = true ↔ compareBytes a.key b.key ≠ .gt := by
  unfold keyLe
  cases compareBytes a.key b.key <;> simp

theorem compareBytes_le_trans :
    ∀ a b c : List Nat, compareBytes a b ≠ .gt → compareBytes b c ≠ .gt →
      compareBytes a c ≠ .gt := by
  intro a
  induction a with
  | nil =>
    intro b c _ _
    cases c with
    | nil => simp [compareBytes]
    | cons z cs => simp [compareBytes]
  | cons x as ih =>
    intro b c h1 h2
    cases b with
    | nil => simp [compareBytes] at h1
    | cons y bs =>
      cases c with
      | nil => simp [compareBytes] at h2
      | cons z cs =>
        simp only [compareBytes] at h1 h2 ⊢
        rcases Nat.lt_trichotomy x y with hxy | hxy | hxy
        · rcases Nat.lt_trichotomy y z with hyz | hyz | hyz
          · rw [if_pos (by omega)]
            simp
          · rw [if_pos (by omega)]
            simp
          · rw [if_neg (by omega), if_pos hyz] at h2
            exact absurd rfl h2
        · subst hxy
          rcases Nat.lt_trichotomy x z with hxz | hxz | hxz
          · rw [if_pos hxz]
            simp
          · subst hxz
            rw [if_neg (by omega), if_neg (by omega)] at h1 h2 ⊢
            exact ih bs cs h1 h2
          · rw [if_neg (by omega), if_pos hxz] at h2
            exact absurd rfl h2
        · rw [if_neg (by omega), if_pos hxy] at h1
          exact absurd rfl h1

theorem keyLe_trans :
    ∀ a b c : Record, keyLe a b = true → keyLe b c = true →
      keyLe a c = true := by
  intro a b c h1 h2
  rw [keyLe_eq_true_iff] at h1 h2 ⊢
  exact compareBytes_le_trans a.key b.key c.key h1 h2

theorem keyLe_total : ∀ a b : Record, (keyLe a b || keyLe b a) = true := by
  intro a b
  unfold keyLe
  rw [compareBytes_swap a.key b.key]
  cases compareBytes a.key b.key <;> rfl

theorem keyLe_lex_iff (a b : Record) :
    keyLe a b = true ↔
      (a.key = b.key ∨ List.Lex (fun x y : Nat => x < y) a.key b.key) := by
  rw [keyLe_eq_true_iff]
  constructor
  · intro h
    cases hc : compareBytes a.key b.key with
    | lt => exact Or.inr ((compareBytes_lt_iff a.key b.key).mp hc)
    | eq => exact Or.inl ((compareBytes_eq_iff a.key b.key).mp hc)
    | gt => exact absurd hc h
  · rintro (he | hl)
    · rw [(compareBytes_eq_iff a.key b.key).mpr he]
      simp
    · rw [(compareBytes_lt_iff a.key b.key).mpr hl]
      simp

/-- C1: after the barrier, the emitted byte stream is obtained from a
permutation of the concatenation of the local result buffer and the
received-records buffer — every record exactly once — arranged in ascending
order under the source comparator (which coincides with unsigned byte-wise
lexicographic order on the 10-byte keys), each record contributing its 100
bytes (key then value) contiguously with no delimiters. -/
theorem mergeEmitSorted (own recvd : List Record)
    (hwf : ∀ r ∈ own ++ recvd, r.key.length = 10 ∧ r.value.length = 90) :
    ((own ++ recvd).mergeSort keyLe).Perm (own ++ recvd)
    ∧ List.Pairwise (fun a b => keyLe a b = true)
        ((own ++ recvd).mergeSort keyLe)
    ∧ (∀ a b : Record, keyLe a b = true ↔
        (a.key = b.key ∨ List.Lex (fun x y : Nat => x < y) a.key b.key))
    ∧ mergeEmit own recvd =
        ((own ++ recvd).mergeSort keyLe).flatMap (fun r => r.key ++ r.value)
    ∧ (∀ r ∈ (own ++ recvd).mergeSort keyLe, (r.key ++ r.value).length = 100) := by
  refine ⟨List.mergeSort_perm (own ++ recvd) keyLe,
    List.sorted_mergeSort keyLe_trans keyLe_total (own ++ recvd),
    fun a b => keyLe_lex_iff a b, rfl, ?_⟩
  intro r hr
  have hmem : r ∈ own ++ recvd :=
    (List.mergeSort_perm (own ++ recvd) keyLe).mem_iff.mp hr
  obtain ⟨hk, hv⟩ := hwf r hmem
  simp [hk, hv]

/-- C1 witness: one local record (key bytes 5) and one received record
(key bytes 3): the emitted order puts the received record first. -/
theorem mergeEmitSorted_witness :
    (∀ r ∈ ([⟨List.replicate 10 5, List.replicate 90 0⟩] : List Record) ++
        ([⟨List.replicate 10 3, List.replicate 90 1⟩] : List Record),
      r.key.length = 10 ∧ r.value.length = 90)
    ∧ ((([⟨List.replicate 10 5, List.replicate 90 0⟩] : List Record) ++
          ([⟨List.replicate 10 3, List.replicate 90 1⟩] : List Record)).mergeSort keyLe).Perm
        (([⟨List.replicate 10 5, List.replicate 90 0⟩] : List Record) ++
          ([⟨List.replicate 10 3, List.replicate 90 1⟩] : List Record))
    ∧ List.Pairwise (fun a b => keyLe a b = true)
        ((([⟨List.replicate 10 5, List.replicate 90 0⟩] : List Record) ++
          ([⟨List.replicate 10 3, List.replicate 90 1⟩] : List Record)).mergeSort keyLe)
    ∧ (∀ a b : Record, keyLe a b = true ↔
        (a.key = b.key ∨ List.Lex (fun x y : Nat => x < y) a.key b.key))
    ∧ mergeEmit [⟨List.replicate 10 5, List.replicate 90 0⟩]
        ([⟨List.replicate 10 3, List.replicate 90 1⟩] : List Record) =
        ((([⟨List.replicate 10 5, List.replicate 90 0⟩] : List Record) ++
          ([⟨List.replicate 10 3, List.replicate 90 1⟩] : List Record)).mergeSort
            keyLe).flatMap (fun r => r.key ++ r.value)
    ∧ (∀ r ∈ (([⟨List.replicate 10 5, List.replicate 90 0⟩] : List Record) ++
          ([⟨List.replicate 10 3, List.replicate 90 1⟩] : List Record)).mergeSort keyLe,
        (r.key ++ r.value).length = 100) := by
  refine ⟨by decide, ?_⟩
  exact mergeEmitSorted [⟨List.replicate 10 5, List.replicate 90 0⟩]
    ([⟨List.replicate 10 3, List.replicate 90 1⟩] : List Record) (by decide)

/-! ## C9: the input-shard reading loop -/

/-- C9 (code evaluation at the failing input): on a 50-byte input shard the
single `Read` into the 90-byte value array returns only 40 bytes with a nil
error, the byte count is ignored, and a record padded with 50 zero bytes that
never came from the input is buffered/dispatched — contradicting the
requirement to loop until a full 100-byte record is read and never to emit a
record assembled from fewer than 100 input bytes. -/
theorem readLocal_short_read_bug :
    readLocal (List.replicate 50 7) =
      [⟨List.replicate 10 7, List.replicate 40 7 ++ List.replicate 50 0⟩]
    ∧ (List.replicate 50 7 : List Nat).length < 100
    ∧ readLocal (List.replicate 200 7) =
      [⟨List.replicate 10 7, List.replicate 90 7⟩,
        ⟨List.replicate 10 7, List.replicate 90 7⟩] := by
  refine ⟨?_, by simp, ?_⟩
  · rw [readLocal]
    norm_num
    rw [readLocal]
    simp
  · rw [readLocal]
    norm_num
    rw [readLocal]
    norm_num
    rw [readLocal]
    simp

end Netsort
